import Mathlib

/-!
Verification of the git-week stargazer aggregation pipeline.

This file gives a shallow embedding, in Lean, of the core logic of the
repository: the week-boundary calculator (`src/lib/dateUtils.js`), the
cumulative stargazer aggregator (`src/stars.js`, in two variants), the
chart merger (`generateChartsMarkdown`), and the driver loop (`main`),
together with theorems settling the behavioural claims about them.

Modelling conventions:
* A UTC calendar date is its day number (days since 1970-01-01, `Int`).
  ISO `YYYY-MM-DD` strings compare lexicographically exactly as their day
  numbers compare, and the string/day correspondence is bijective on
  well-formed dates, so date-string keys and comparisons are modelled by
  `Int` keys and comparisons.
* A JavaScript `Date` is its millisecond timestamp (`Int`).  `Int`
  division `/` is Euclidean; for the positive divisor 86400000 it is
  floor division, matching `toISOString`.
* JavaScript objects used as maps are insertion-ordered association
  lists; assigning an existing key overwrites in place, a new key is
  appended (`jsObjectSet`).
* `Array.prototype.sort` with a consistent comparator is the unique
  stable sort; it is modelled by `List.insertionSort`, which is stable.
-/

/-- Milliseconds per UTC day; JavaScript `Date` arithmetic is in milliseconds
since the epoch. -/
def msPerDay : Int := 86400000

/-- Well-formed inputs accepted by `formatDate` and `getMonday`
(src/lib/dateUtils.js): either a JS `Date` object, identified by its
millisecond timestamp, or a date string, identified by its calendar-date part
(days since 1970-01-01) together with the optional time-of-day part after the
`T` separator, which `formatDate` discards. -/
inductive DateInput where
  | dateObj (ms : Int)
  | dateStr (day : Int) (time : Option Int)

/-- Model of `formatDate` (src/lib/dateUtils.js): a string keeps only its date
part (`date.split('T')[0]`); a `Date` is rendered by `toISOString`, whose date
part is the UTC calendar date, i.e. the floor of `ms / 86400000`. -/
def formatDate : DateInput → Int
  | .dateObj ms => ms / msPerDay
  | .dateStr day _ => day

/-- Model of `getUTCDay()` on a day number: 1970-01-01 was a Thursday (4); `%`
on `Int` is `emod`, always in `[0, 7)`, matching JS `getUTCDay`. -/
def dayOfWeek (day : Int) : Int := (day + 4) % 7

/-- Model of `getMonday` (src/lib/dateUtils.js): normalise the input with
`formatDate`, re-parse the date part at UTC midnight, and walk back
`dayOfWeek == 0 ? 6 : dayOfWeek - 1` calendar days. -/
def getMonday (dateInput : DateInput) : Int :=
  let inputDateStr := formatDate dateInput
  let d := inputDateStr
  let dow := dayOfWeek d
  let daysToSubtract := if dow = 0 then 6 else dow - 1
  d - daysToSubtract

/-- Restatement, for claim C8, of the Monday computation as a function of the
UTC calendar date alone (the spec's "only the UTC calendar date matters"). -/
def getMondayOfDay (d : Int) : Int :=
  d - (if dayOfWeek d = 0 then 6 else dayOfWeek d - 1)

/-- Model of `getNextMonday` (src/lib/dateUtils.js): parse at UTC midnight and
add exactly 7 calendar days (`setUTCDate(getUTCDate() + 7)`). -/
def getNextMonday (monday : Int) : Int := monday + 7

theorem getMondayOfDay_eq (d : Int) : getMondayOfDay d = d - (d + 3) % 7 := by
  unfold getMondayOfDay dayOfWeek
  rcases eq_or_ne ((d + 4) % 7) 0 with h | h
  · rw [if_pos h]
    omega
  · rw [if_neg h]
    omega

theorem getMonday_eq_ofDay (i : DateInput) :
    getMonday i = getMondayOfDay (formatDate i) := rfl

theorem getMondayOfDay_mono {d1 d2 : Int} (h : d1 ≤ d2) :
    getMondayOfDay d1 ≤ getMondayOfDay d2 := by
  rw [getMondayOfDay_eq, getMondayOfDay_eq]
  omega

theorem dayOfWeek_getMondayOfDay (d : Int) : dayOfWeek (getMondayOfDay d) = 1 := by
  rw [getMondayOfDay_eq]
  unfold dayOfWeek
  omega

/-- C7: for every well-formed date input, `getMonday` lands on a Monday, does
not exceed the input's UTC calendar date, and is less than 7 days before it. -/
theorem c7_getMonday_is_monday_within_week (i : DateInput) :
    dayOfWeek (getMonday i) = 1 ∧
    getMonday i ≤ formatDate i ∧
    formatDate i - getMonday i < 7 := by
  refine ⟨dayOfWeek_getMondayOfDay (formatDate i), ?_, ?_⟩ <;>
  · rw [getMonday_eq_ofDay, getMondayOfDay_eq]
    omega

/-- C8: `getMonday` normalises every well-formed input, full timestamp or
date-only string, to its UTC calendar date first (a `Date` is floored to its
UTC day, a string keeps only its date part), and only that calendar date
affects the result. -/
theorem c8_getMonday_normalizes (ms d : Int) (t : Option Int) (i1 i2 : DateInput)
    (h : formatDate i1 = formatDate i2) :
    formatDate (DateInput.dateObj ms) = ms / msPerDay ∧
    formatDate (DateInput.dateStr d t) = d ∧
    getMonday i1 = getMondayOfDay (formatDate i1) ∧
    getMonday i1 = getMonday i2 := by
  refine ⟨rfl, rfl, rfl, ?_⟩
  rw [getMonday_eq_ofDay, getMonday_eq_ofDay, h]

/-- Witness for C8: a full timestamp during 2025-09-10 (day number 20341) and
the date-only string for 2025-09-10 normalise alike and get the same Monday. -/
theorem c8_getMonday_normalizes_witness :
    formatDate (DateInput.dateObj (20341 * 86400000 + 12345678)) =
      formatDate (DateInput.dateStr 20341 (some 45296000)) ∧
    getMonday (DateInput.dateObj (20341 * 86400000 + 12345678)) =
      getMonday (DateInput.dateStr 20341 (some 45296000)) := by
  refine ⟨by decide, ?_⟩
  exact (c8_getMonday_normalizes 0 0 none
    (DateInput.dateObj (20341 * 86400000 + 12345678))
    (DateInput.dateStr 20341 (some 45296000)) (by decide)).2.2.2

/-- JS object property assignment `obj[key] = val` on an insertion-ordered
map: an existing key is overwritten in place, a new key is appended. -/
def jsObjectSet {κ ν : Type} [DecidableEq κ] : List (κ × ν) → κ → ν → List (κ × ν)
  | [], key, val => [(key, val)]
  | (k, v) :: rest, key, val =>
    if k = key then (k, val) :: rest else (k, v) :: jsObjectSet rest key val

/-- JS object property read `obj[key]`: `some` value, or `none` (undefined). -/
def lookupObj {κ ν : Type} [DecidableEq κ] : List (κ × ν) → κ → Option ν
  | [], _ => none
  | (k, v) :: rest, key => if k = key then some v else lookupObj rest key

/-- Week key (Monday day number) of a star event: `getMonday(star)` applied to
a JS `Date` (src/stars.js line 80). -/
def mondayOfMs (ms : Int) : Int := getMonday (.dateObj ms)

/-- Exclusive upper bound used by `generateCumulativeData` (src/stars.js):
`new Date(getNextMonday(finalWeek) + 'T00:00:00.000Z')`, in milliseconds. -/
def upperBoundMs (finalWeek : Int) : Int := getNextMonday finalWeek * msPerDay

/-- The filter-then-sort step of `generateCumulativeData` (src/stars.js):
`stargazers.filter(star => star < upperBound).sort((a, b) => a.getTime() - b.getTime())`.
`filter` allocates a fresh array; the ascending numeric comparator sort is
stable (ES2019), modelled by the stable `insertionSort`. -/
def filteredStargazers (stargazers : List Int) (finalWeek : Int) : List Int :=
  List.insertionSort (· ≤ ·) (stargazers.filter (fun star => star < upperBoundMs finalWeek))

/-- The accumulation loop of `generateCumulativeData` (src/stars.js): for each
index `i` into the sorted filtered array, `cumulative[getMonday(star)] = i + 1`,
later stars of the same week overwriting earlier ones. -/
def buildCumulative (filtered : List Int) : List (Int × Nat) :=
  filtered.enum.foldl
    (fun cumulative p => jsObjectSet cumulative (mondayOfMs p.2) (p.1 + 1)) []

/-- Model of `generateCumulativeData` (src/stars.js): week key ↦ cumulative
star count as of the end of that week, for the weeks containing a star. -/
def generateCumulativeData (stargazers : List Int) (finalWeek : Int) : List (Int × Nat) :=
  if stargazers.length = 0 then []
  else
    let filtered := filteredStargazers stargazers finalWeek
    if filtered.length = 0 then []
    else buildCumulative filtered

/-- Model of the `generateCumulativeData` variant in the second stars script:
the same filter, then the parameterless `.sort()` (which orders `Date`s by
their string rendering), then the counting loop
`cumulative[starMonday] = (cumulative[starMonday] || 0) + 1`; the stored
values are per-week increments, not running totals.  Only the order of the
fresh filtered array depends on the comparator, and the loop's final lookups
are invariant under any reordering (`lookupObj_generateCumulativeDataAlt_perm`
below), so the `.sort()` is modelled by the timestamp sort.  `altCountStep`
is the loop body `cumulative[starMonday] = (cumulative[starMonday] || 0) + 1`. -/
def altCountStep (cumulative : List (Int × Nat)) (star : Int) : List (Int × Nat) :=
  let starMonday := mondayOfMs star
  let existingCount := (lookupObj cumulative starMonday).getD 0
  jsObjectSet cumulative starMonday (existingCount + 1)

def generateCumulativeDataAlt (stargazers : List Int) (finalWeek : Int) : List (Int × Nat) :=
  if stargazers.length = 0 then []
  else
    let filtered := filteredStargazers stargazers finalWeek
    if filtered.length = 0 then []
    else filtered.foldl altCountStep []

/-- One repository's record in `allData`: its name and its stored weekly map
(`{ name, cumulative }` in the stars scripts). -/
structure RepoEntry where
  name : String
  cumulative : List (Int × Nat)

/-- JS `Set.prototype.add`: append if not already present. -/
def jsSetAdd (s : List Int) (x : Int) : List Int := if x ∈ s then s else s ++ [x]

/-- The union-then-sort step of `generateChartsMarkdown`: collect every date
key of every repository into a `Set`, then sort (ISO date strings sort
lexicographically exactly as their day numbers). -/
def sortedDatesOf (allData : List RepoEntry) : List Int :=
  List.insertionSort (· ≤ ·)
    (allData.foldl (fun s repo => repo.cumulative.foldl (fun s2 kv => jsSetAdd s2 kv.1) s) [])

/-- The `while (current <= endDate)` loop of `generateChartsMarkdown`,
stepping 7 days per iteration, with enough structural fuel to run every
iteration (the loop advances by 7 ≥ 1 day per step). -/
def mondayRangeAux : Nat → Int → Int → List Int
  | 0, _, _ => []
  | fuel + 1, current, endDate =>
    if current ≤ endDate then current :: mondayRangeAux fuel (current + 7) endDate
    else []

/-- The contiguous Monday axis from `b` to `e` inclusive, by 7-day steps. -/
def mondayRange (b e : Int) : List Int := mondayRangeAux (e + 1 - b).toNat b e

/-- Shared axis of `generateChartsMarkdown`: from the first to the last
sorted date; an empty union yields an empty axis (the `while` loop body never
runs when `begin` is undefined). -/
def allMondaysOf (allData : List RepoEntry) : List Int :=
  let sortedDates := sortedDatesOf allData
  match sortedDates.head?, sortedDates.getLast? with
  | some b, some e => mondayRange b e
  | _, _ => []

/-- Per-repository column of `generateChartsMarkdown`: walk the shared axis
with `prev = prev + (cumulative[date] || 0)`, pushing the running value;
returns the data column together with the final value (stored as
`repo.total`). -/
def chartSeriesOf (allMondays : List Int) (cumulative : List (Int × Nat)) :
    List Nat × Nat :=
  allMondays.foldl (fun acc date =>
    let add := (lookupObj cumulative date).getD 0
    let prev := acc.2 + add
    (acc.1 ++ [prev], prev)) ([], 0)

/-- One rendered chart series: repository title, data column, final total. -/
structure SeriesOut where
  title : String
  data : List Nat
  total : Nat

/-- The chart-data core of `generateChartsMarkdown`: the shared contiguous
Monday axis and one forward-accumulated series per repository, in input
order. -/
def generateChartsSeries (allData : List RepoEntry) : List SeriesOut :=
  let allMondays := allMondaysOf allData
  allData.map (fun repo =>
    let dt := chartSeriesOf allMondays repo.cumulative
    ⟨repo.name, dt.1, dt.2⟩)

/-- Sanity check of the day-number encoding of the concrete dates used below:
2025-09-08 = 20339 and 2025-09-15 = 20346 are Mondays, 2025-09-10 = 20341 is a
Wednesday, 2025-09-18 = 20349 is a Thursday, 2025-09-01 = 20332 is a Monday. -/
theorem concrete_day_numbers :
    dayOfWeek 20339 = 1 ∧ dayOfWeek 20346 = 1 ∧ dayOfWeek 20341 = 3 ∧
    dayOfWeek 20349 = 4 ∧ dayOfWeek 20332 = 1 := by decide

/-- C1: for star events at 2025-09-10, 2025-09-10 and 2025-09-18 and the
reference week of 2025-09-15, the aggregator of src/stars.js produces exactly
the series 2025-09-08 ↦ 2, 2025-09-15 ↦ 3 (each week's Monday mapped to the
running cumulative total after all events of that week); the variant script
stores the per-week increments 2 and 1 for those Mondays, and its chart
accumulation yields the same cumulative column [2, 3] with total 3. -/
theorem c1_scenario_cumulative :
    generateCumulativeData [20341 * msPerDay, 20341 * msPerDay, 20349 * msPerDay]
        (getMonday (DateInput.dateStr 20346 none)) = [(20339, 2), (20346, 3)] ∧
    generateChartsSeries [⟨"owner/repo",
        generateCumulativeDataAlt [20341 * msPerDay, 20341 * msPerDay, 20349 * msPerDay]
          (getMonday (DateInput.dateStr 20346 none))⟩] =
      [⟨"owner/repo", [2, 3], 3⟩] := by
  constructor <;> rfl

/-- Counterexample to C3: with resource A's stored series
{2025-09-01 ↦ 1, 2025-09-15 ↦ 3} (values stored as cumulative counts, exactly
as the claim states) and B's {2025-09-08 ↦ 2}, the merger produces the column
[1, 1, 4] with final total 4 for A — not [1, 1, 3] with total 3 — because the
code adds the stored values as if they were per-week increments. -/
theorem c3_counterexample :
    generateChartsSeries [⟨"A", [(20332, 1), (20346, 3)]⟩, ⟨"B", [(20339, 2)]⟩] =
      [⟨"A", [1, 1, 4], 4⟩, ⟨"B", [0, 2, 2], 2⟩] ∧
    ([1, 1, 4] : List Nat) ≠ [1, 1, 3] ∧ (4 : Nat) ≠ 3 :=
  ⟨rfl, by decide, by decide⟩

/-- C3 as amended: the merger does produce the contiguous shared Monday axis
[W1, W2, W3], but it running-sums the stored values as per-week increments:
with A stored as the cumulative counts {W1:1, W3:3} it yields A = [1, 1, 4]
(final total 4) and B = [0, 2, 2] (final total 2); the claimed columns
A = [1, 1, 3] with totals A = 3, B = 2 arise when A's stored values are the
per-week increments {W1:1, W3:2}, which is what this repository's own variant
aggregator stores. -/
theorem c3_amended_merger :
    allMondaysOf [⟨"A", [(20332, 1), (20346, 3)]⟩, ⟨"B", [(20339, 2)]⟩] =
      [20332, 20339, 20346] ∧
    generateChartsSeries [⟨"A", [(20332, 1), (20346, 3)]⟩, ⟨"B", [(20339, 2)]⟩] =
      [⟨"A", [1, 1, 4], 4⟩, ⟨"B", [0, 2, 2], 2⟩] ∧
    generateChartsSeries [⟨"A", [(20332, 1), (20346, 2)]⟩, ⟨"B", [(20339, 2)]⟩] =
      [⟨"A", [1, 1, 3], 3⟩, ⟨"B", [0, 2, 2], 2⟩] :=
  ⟨rfl, rfl, rfl⟩

theorem lookupObj_jsObjectSet {κ ν : Type} [DecidableEq κ]
    (obj : List (κ × ν)) (k : κ) (v : ν) (k2 : κ) :
    lookupObj (jsObjectSet obj k v) k2 =
      if k = k2 then some v else lookupObj obj k2 := by
  induction obj with
  | nil => simp only [jsObjectSet, lookupObj]
  | cons kv rest ih =>
    obtain ⟨k1, v1⟩ := kv
    simp only [jsObjectSet, lookupObj]
    split_ifs with h1 h2 <;> simp_all [lookupObj]

/-- Last write wins: reading a key after a sequence of JS object assignments
returns the value of the last assignment to that key, if there was one. -/
theorem lookupObj_foldl_jsObjectSet {κ ν : Type} [DecidableEq κ]
    (pairs : List (κ × ν)) (init : List (κ × ν)) (k : κ) :
    lookupObj (pairs.foldl (fun obj kv => jsObjectSet obj kv.1 kv.2) init) k =
      match (pairs.filter (fun kv => kv.1 = k)).getLast? with
      | some kv => some kv.2
      | none => lookupObj init k := by
  induction pairs generalizing init with
  | nil => rfl
  | cons kv rest ih =>
    simp only [List.foldl_cons, List.filter_cons]
    rw [ih]
    by_cases h : kv.1 = k
    · rw [if_pos (by simpa using h)]
      cases hl : (rest.filter (fun kv2 => kv2.1 = k)).getLast? with
      | some kv2 =>
        have : (kv :: rest.filter (fun kv2 => kv2.1 = k)).getLast? = some kv2 := by
          rcases hfe : rest.filter (fun kv2 => kv2.1 = k) with _ | ⟨a, l2⟩
          · rw [hfe] at hl; simp at hl
          · rw [hfe] at hl
            rw [hfe, List.getLast?_cons_cons]
            exact hl
        rw [this]
      | none =>
        have hfe : rest.filter (fun kv2 => kv2.1 = k) = [] :=
          List.getLast?_eq_none_iff.mp hl
        rw [hfe, lookupObj_jsObjectSet, if_pos h]
        rfl
    · rw [if_neg (by simpa using h)]
      cases hl : (rest.filter (fun kv2 => kv2.1 = k)).getLast? with
      | some kv2 => rfl
      | none => rw [lookupObj_jsObjectSet, if_neg h]

theorem buildCumulative_eq_foldl_pairs (s : List Int) :
    buildCumulative s =
      (s.enum.map (fun p => (mondayOfMs p.2, p.1 + 1))).foldl
        (fun obj kv => jsObjectSet obj kv.1 kv.2) [] := by
  rw [List.foldl_map]
  rfl

/-- Every stored value of `buildCumulative` comes from some index `i` of the
sorted filtered array: the key is that star's Monday and the value is
`i + 1`. -/
theorem lookupObj_buildCumulative_some {s : List Int} {w : Int} {v : Nat}
    (h : lookupObj (buildCumulative s) w = some v) :
    ∃ i : Nat, ∃ hi : i < s.length, mondayOfMs s[i] = w ∧ v = i + 1 := by
  rw [buildCumulative_eq_foldl_pairs, lookupObj_foldl_jsObjectSet] at h
  rcases hl : ((s.enum.map (fun p => (mondayOfMs p.2, p.1 + 1))).filter
      (fun kv => kv.1 = w)).getLast? with _ | kv
  · rw [hl] at h
    simp [lookupObj] at h
  · rw [hl] at h
    obtain ⟨kw, kvv⟩ := kv
    have hv : kvv = v := by simpa using h
    have hmem := List.mem_of_mem_getLast? hl
    rw [List.mem_filter] at hmem
    obtain ⟨hmm, hkey⟩ := hmem
    have hkw : kw = w := by simpa using hkey
    rw [List.mem_map] at hmm
    obtain ⟨p, hp, hpe⟩ := hmm
    rw [List.mem_enum_iff_getElem?] at hp
    obtain ⟨hlt, hget⟩ := List.getElem?_eq_some.mp hp
    have h1 : mondayOfMs p.2 = kw := congrArg Prod.fst hpe
    have h2 : p.1 + 1 = kvv := congrArg Prod.snd hpe
    refine ⟨p.1, hlt, ?_, ?_⟩
    · rw [hget, h1, hkw]
    · omega

theorem mondayOfMs_mono {a b : Int} (h : a ≤ b) : mondayOfMs a ≤ mondayOfMs b := by
  unfold mondayOfMs
  rw [getMonday_eq_ofDay, getMonday_eq_ofDay]
  apply getMondayOfDay_mono
  simp only [formatDate, msPerDay]
  omega

theorem mem_filteredStargazers {t : Int} {stargazers : List Int} {finalWeek : Int} :
    t ∈ filteredStargazers stargazers finalWeek ↔
      t ∈ stargazers ∧ t < upperBoundMs finalWeek := by
  unfold filteredStargazers
  rw [List.mem_insertionSort, List.mem_filter]
  simp

/-- A star of the filtered array contributes its week to the stored series. -/
theorem lookupObj_buildCumulative_isSome {s : List Int} {t : Int} (ht : t ∈ s) :
    ∃ v, lookupObj (buildCumulative s) (mondayOfMs t) = some v := by
  rw [buildCumulative_eq_foldl_pairs, lookupObj_foldl_jsObjectSet]
  rcases hl : ((s.enum.map (fun p => (mondayOfMs p.2, p.1 + 1))).filter
      (fun kv => kv.1 = mondayOfMs t)).getLast? with _ | kv
  · exfalso
    rw [List.getLast?_eq_none_iff] at hl
    obtain ⟨i, hi, hget⟩ := List.mem_iff_getElem.mp ht
    have hmem : (mondayOfMs t, i + 1) ∈
        (s.enum.map (fun p => (mondayOfMs p.2, p.1 + 1))).filter
          (fun kv => kv.1 = mondayOfMs t) := by
      rw [List.mem_filter]
      refine ⟨List.mem_map.mpr ⟨(i, s[i]), ?_, by rw [hget]⟩, by simp⟩
      rw [List.mem_enum_iff_getElem?]
      simp
    rw [hl] at hmem
    exact absurd hmem (List.not_mem_nil _)
  · exact ⟨kv.2, by rw [hl]⟩

/-- C6: the aggregator's filter window is half-open: for every event sequence
and reference week, an event timestamped exactly at `upperBound` (next Monday
00:00:00Z after the reference week) is excluded from the filtered array, while
every input event any amount earlier is kept, and its week carries a value in
the produced series. -/
theorem c6_half_open_boundary (stargazers : List Int) (finalWeek : Int) :
    upperBoundMs finalWeek ∉ filteredStargazers stargazers finalWeek ∧
    ∀ t ∈ stargazers, t < upperBoundMs finalWeek →
      t ∈ filteredStargazers stargazers finalWeek ∧
      ∃ v, lookupObj (generateCumulativeData stargazers finalWeek)
        (mondayOfMs t) = some v := by
  constructor
  · intro hmem
    exact absurd (mem_filteredStargazers.mp hmem).2 (lt_irrefl _)
  · intro t ht hlt
    have htf : t ∈ filteredStargazers stargazers finalWeek :=
      mem_filteredStargazers.mpr ⟨ht, hlt⟩
    have hA : ¬stargazers.length = 0 := by
      intro h0
      rw [List.length_eq_zero] at h0
      rw [h0] at ht
      exact absurd ht (List.not_mem_nil t)
    have hB : ¬(filteredStargazers stargazers finalWeek).length = 0 := by
      intro h0
      rw [List.length_eq_zero] at h0
      rw [h0] at htf
      exact absurd htf (List.not_mem_nil t)
    refine ⟨htf, ?_⟩
    simp only [generateCumulativeData, if_neg hA, if_neg hB]
    exact lookupObj_buildCumulative_isSome htf

/-- Witness for C6 at the reference week of 2025-09-15 (upper bound
2025-09-22T00:00:00Z = 20353 days): the event exactly at the bound is
excluded, the event 1 ms earlier is included and its week is in the series. -/
theorem c6_half_open_boundary_witness :
    (20353 * 86400000 - 1 : Int) ∈ ([20353 * 86400000 - 1, 20353 * 86400000] : List Int) ∧
    upperBoundMs 20346 ∉
      filteredStargazers [20353 * 86400000 - 1, 20353 * 86400000] 20346 ∧
    (20353 * 86400000 - 1 : Int) ∈
      filteredStargazers [20353 * 86400000 - 1, 20353 * 86400000] 20346 ∧
    ∃ v, lookupObj
      (generateCumulativeData [20353 * 86400000 - 1, 20353 * 86400000] 20346)
      (mondayOfMs (20353 * 86400000 - 1)) = some v := by
  have h := c6_half_open_boundary [20353 * 86400000 - 1, 20353 * 86400000] 20346
  have h2 := h.2 (20353 * 86400000 - 1) (by decide) (by decide)
  exact ⟨by decide, h.1, h2.1, h2.2⟩

/-- C2: the cumulative series produced by the aggregator of src/stars.js is
non-decreasing in week-key order: for every event sequence and reference week,
if weeks `w1 ≤ w2` both carry stored values, the value at `w1` is at most the
value at `w2`. -/
theorem c2_cumulative_monotone (stargazers : List Int) (finalWeek : Int)
    {w1 w2 : Int} {v1 v2 : Nat}
    (h1 : lookupObj (generateCumulativeData stargazers finalWeek) w1 = some v1)
    (h2 : lookupObj (generateCumulativeData stargazers finalWeek) w2 = some v2)
    (hw : w1 ≤ w2) : v1 ≤ v2 := by
  simp only [generateCumulativeData] at h1 h2
  by_cases hA : stargazers.length = 0
  · rw [if_pos hA] at h1
    simp [lookupObj] at h1
  rw [if_neg hA] at h1 h2
  by_cases hB : (filteredStargazers stargazers finalWeek).length = 0
  · rw [if_pos hB] at h1
    simp [lookupObj] at h1
  rw [if_neg hB] at h1 h2
  obtain ⟨i1, hi1, hm1, hv1⟩ := lookupObj_buildCumulative_some h1
  obtain ⟨i2, hi2, hm2, hv2⟩ := lookupObj_buildCumulative_some h2
  rcases eq_or_lt_of_le hw with heq | hlt
  · subst heq
    have := Option.some.inj (h1.symm.trans h2)
    omega
  · have hsorted : List.Sorted (· ≤ ·) (filteredStargazers stargazers finalWeek) := by
      unfold filteredStargazers
      exact List.sorted_insertionSort _ _
    have hii : i1 < i2 := by
      by_contra hcon
      push_neg at hcon
      have hle : (filteredStargazers stargazers finalWeek)[i2] ≤
          (filteredStargazers stargazers finalWeek)[i1] := by
        rcases Nat.lt_or_ge i2 i1 with hl2 | hge
        · exact List.pairwise_iff_getElem.mp hsorted i2 i1 hi2 hi1 hl2
        · have hie : i1 = i2 := le_antisymm hge hcon
          subst hie
          exact le_refl _
      have hmono := mondayOfMs_mono hle
      rw [hm2, hm1] at hmono
      omega
    omega

/-- Witness for C2: for the events 2025-09-10 and 2025-09-18 with reference
week 2025-09-15, the values 1 at week 2025-09-08 and 2 at week 2025-09-15 are
ordered. -/
theorem c2_cumulative_monotone_witness :
    lookupObj (generateCumulativeData [20341 * 86400000, 20349 * 86400000] 20346)
      20339 = some 1 ∧
    lookupObj (generateCumulativeData [20341 * 86400000, 20349 * 86400000] 20346)
      20346 = some 2 ∧
    (1 : Nat) ≤ 2 := by
  have e1 : lookupObj (generateCumulativeData
      [20341 * 86400000, 20349 * 86400000] 20346) 20339 = some 1 := rfl
  have e2 : lookupObj (generateCumulativeData
      [20341 * 86400000, 20349 * 86400000] 20346) 20346 = some 2 := rfl
  exact ⟨e1, e2, c2_cumulative_monotone [20341 * 86400000, 20349 * 86400000]
    20346 e1 e2 (by decide)⟩

/-- The aggregator's filter-and-sort step with each event decorated by its
original fetch position: the elements of the `stargazers` array are tracked as
(original index, timestamp) pairs through
`filter(star => star < upperBound).sort((a, b) => a.getTime() - b.getTime())`.
The comparator consults only the timestamp; the sort is stable (ES2019),
modelled by the stable `insertionSort`. -/
def sortedFilteredWithIndex (stargazers : List Int) (finalWeek : Int) :
    List (Nat × Int) :=
  List.insertionSort (fun p q => p.2 ≤ q.2)
    (stargazers.enum.filter (fun p => p.2 < upperBoundMs finalWeek))

instance : IsTotal (Nat × Int) (fun p q => p.2 ≤ q.2) :=
  ⟨fun a b => le_total a.2 b.2⟩

instance : IsTrans (Nat × Int) (fun p q => p.2 ≤ q.2) :=
  ⟨fun _ _ _ h1 h2 => le_trans h1 h2⟩

theorem map_snd_filter_snd (p : Int → Bool) :
    ∀ l : List (Nat × Int),
      (l.filter (fun q => p q.2)).map Prod.snd = (l.map Prod.snd).filter p
  | [] => rfl
  | q :: rest => by
    by_cases h : p q.2 <;>
      simp [List.filter_cons, h, map_snd_filter_snd p rest]

theorem map_snd_orderedInsert (a : Nat × Int) :
    ∀ m : List (Nat × Int),
      (List.orderedInsert (fun p q : Nat × Int => p.2 ≤ q.2) a m).map Prod.snd =
        List.orderedInsert (· ≤ ·) a.2 (m.map Prod.snd)
  | [] => rfl
  | b :: rest => by
    simp only [List.orderedInsert, List.map_cons]
    by_cases h : a.2 ≤ b.2
    · rw [if_pos h, if_pos h]
      simp
    · rw [if_neg h, if_neg h, List.map_cons, map_snd_orderedInsert a rest]

theorem map_snd_insertionSort :
    ∀ pairs : List (Nat × Int),
      (List.insertionSort (fun p q => p.2 ≤ q.2) pairs).map Prod.snd =
        List.insertionSort (· ≤ ·) (pairs.map Prod.snd)
  | [] => rfl
  | a :: rest => by
    simp only [List.insertionSort]
    rw [map_snd_orderedInsert, map_snd_insertionSort rest]

theorem map_snd_sortedFilteredWithIndex (stargazers : List Int) (finalWeek : Int) :
    (sortedFilteredWithIndex stargazers finalWeek).map Prod.snd =
      filteredStargazers stargazers finalWeek := by
  unfold sortedFilteredWithIndex filteredStargazers
  rw [map_snd_insertionSort,
    map_snd_filter_snd (fun star => decide (star < upperBoundMs finalWeek)),
    List.enum_map_snd]

theorem pairwise_fst_lt_enumFrom {α : Type} (l : List α) (n : Nat) :
    List.Pairwise (fun p q : Nat × α => p.1 < q.1) (l.enumFrom n) := by
  induction l generalizing n with
  | nil => exact List.Pairwise.nil
  | cons a rest ih =>
    refine List.Pairwise.cons ?_ (ih (n + 1))
    intro q hq
    obtain ⟨i, x⟩ := q
    have := (List.mk_mem_enumFrom_iff_le_and_getElem?_sub.mp hq).1
    omega

theorem pairwise_S_orderedInsert (a : Nat × Int) (m : List (Nat × Int))
    (hsorted : List.Pairwise (fun p q : Nat × Int => p.2 ≤ q.2) m)
    (hS : List.Pairwise
      (fun p q : Nat × Int => p.2 < q.2 ∨ (p.2 = q.2 ∧ p.1 < q.1)) m)
    (ha : ∀ q ∈ m, a.1 < q.1) :
    List.Pairwise (fun p q : Nat × Int => p.2 < q.2 ∨ (p.2 = q.2 ∧ p.1 < q.1))
      (List.orderedInsert (fun p q : Nat × Int => p.2 ≤ q.2) a m) := by
  induction m with
  | nil => simp
  | cons b rest ih =>
    rw [List.orderedInsert]
    by_cases hab : a.2 ≤ b.2
    · rw [if_pos hab]
      refine List.Pairwise.cons ?_ hS
      intro x hx
      have hax : a.1 < x.1 := ha x hx
      have h2 : a.2 ≤ x.2 := by
        rcases List.mem_cons.mp hx with rfl | hx2
        · exact hab
        · exact le_trans hab (List.rel_of_pairwise_cons hsorted hx2)
      rcases lt_or_eq_of_le h2 with h3 | h3
      · exact Or.inl h3
      · exact Or.inr ⟨h3, hax⟩
    · rw [if_neg hab]
      refine List.Pairwise.cons ?_
        (ih hsorted.tail hS.tail (fun q hq => ha q (List.mem_cons_of_mem b hq)))
      intro x hx
      rcases (List.mem_orderedInsert _).mp hx with rfl | hx2
      · exact Or.inl (lt_of_not_le hab)
      · exact List.rel_of_pairwise_cons hS hx2

theorem pairwise_S_insertionSort (pairs : List (Nat × Int))
    (h : List.Pairwise (fun p q : Nat × Int => p.1 < q.1) pairs) :
    List.Pairwise (fun p q : Nat × Int => p.2 < q.2 ∨ (p.2 = q.2 ∧ p.1 < q.1))
      (List.insertionSort (fun p q => p.2 ≤ q.2) pairs) := by
  induction pairs with
  | nil => simp
  | cons a rest ih =>
    rw [List.insertionSort]
    apply pairwise_S_orderedInsert
    · exact List.sorted_insertionSort _ _
    · exact ih h.tail
    · intro q hq
      rw [List.mem_insertionSort] at hq
      exact List.rel_of_pairwise_cons h hq

/-- C5: for every event sequence and reference week, the aggregator sorts the
filtered events ascending by timestamp with a stable tie-break: tracking each
event by its original fetch position, the sorted array is ordered so that a
pair out of timestamp order never occurs and equal timestamps stay in original
fetch order; forgetting the positions gives exactly the aggregator's
filtered-and-sorted array. -/
theorem c5_sort_stable (stargazers : List Int) (finalWeek : Int) :
    (sortedFilteredWithIndex stargazers finalWeek).map Prod.snd =
      filteredStargazers stargazers finalWeek ∧
    List.Pairwise (fun p q : Nat × Int => p.2 < q.2 ∨ (p.2 = q.2 ∧ p.1 < q.1))
      (sortedFilteredWithIndex stargazers finalWeek) := by
  constructor
  · exact map_snd_sortedFilteredWithIndex stargazers finalWeek
  · apply pairwise_S_insertionSort
    apply List.Pairwise.filter
    exact pairwise_fst_lt_enumFrom stargazers 0

/-- A minimal heap of JS arrays, to state what the aggregator mutates: each
allocated array lives at a numeric reference; `next` is the next fresh one. -/
structure JsHeap where
  arrays : Nat → List Int
  next : Nat

/-- Read the array behind reference `r`. -/
def readArr (h : JsHeap) (r : Nat) : List Int := h.arrays r

/-- Allocate a fresh array holding `l`, returning its reference. -/
def allocArr (h : JsHeap) (l : List Int) : Nat × JsHeap :=
  (h.next, ⟨fun i => if i = h.next then l else h.arrays i, h.next + 1⟩)

/-- Overwrite the array behind an existing reference (in-place mutation). -/
def writeArr (h : JsHeap) (r : Nat) (l : List Int) : JsHeap :=
  ⟨fun i => if i = r then l else h.arrays i, h.next⟩

/-- `Array.prototype.filter` reads the receiver and allocates a fresh array
with the kept elements; the receiver is untouched (ES spec). -/
def jsFilterAlloc (h : JsHeap) (r : Nat) (p : Int → Bool) : Nat × JsHeap :=
  allocArr h ((readArr h r).filter p)

/-- `Array.prototype.sort` sorts the receiver in place (here: the stable
ascending timestamp sort) and returns the same reference. -/
def jsSortInPlace (h : JsHeap) (r : Nat) : Nat × JsHeap :=
  (r, writeArr h r (List.insertionSort (· ≤ ·) (readArr h r)))

/-- Heap-level model of `generateCumulativeData` (src/stars.js): `stargazers`
is a reference to the caller's array; `filter` allocates a fresh array, and
the chained `sort` mutates only that fresh array. -/
def generateCumulativeDataHeap (h : JsHeap) (stargazersRef : Nat)
    (finalWeek : Int) : List (Int × Nat) × JsHeap :=
  let stargazers := readArr h stargazersRef
  if stargazers.length = 0 then ([], h)
  else
    let fr := jsFilterAlloc h stargazersRef
      (fun star => decide (star < upperBoundMs finalWeek))
    let sr := jsSortInPlace fr.2 fr.1
    let filtered := readArr sr.2 sr.1
    if filtered.length = 0 then ([], sr.2)
    else (buildCumulative filtered, sr.2)

theorem readArr_writeArr_ne {h : JsHeap} {r1 r2 : Nat} {l : List Int}
    (hne : r2 ≠ r1) : readArr (writeArr h r1 l) r2 = readArr h r2 := by
  simp [readArr, writeArr, if_neg hne]

theorem readArr_allocArr_old {h : JsHeap} {l : List Int} {r : Nat}
    (hne : r ≠ h.next) : readArr (allocArr h l).2 r = readArr h r := by
  simp [readArr, allocArr, if_neg hne]

theorem readArr_allocArr_new (h : JsHeap) (l : List Int) :
    readArr (allocArr h l).2 (allocArr h l).1 = l := by
  simp [readArr, allocArr]


theorem readArr_writeArr_eq (h : JsHeap) (r : Nat) (l : List Int) :
    readArr (writeArr h r l) r = l := by
  simp [readArr, writeArr]

theorem allocArr_fst (h : JsHeap) (l : List Int) : (allocArr h l).1 = h.next := rfl

/-- C10: the aggregator does not mutate its input: for every heap, reference
to the caller's stargazers array, and reference week, the caller's array holds
the same elements in the same order after the call, and the computed series
agrees with the pure model applied to the array's (unchanged) contents. -/
theorem c10_no_mutation (h : JsHeap) (r : Nat) (finalWeek : Int)
    (hr : r < h.next) :
    readArr (generateCumulativeDataHeap h r finalWeek).2 r = readArr h r ∧
    (generateCumulativeDataHeap h r finalWeek).1 =
      generateCumulativeData (readArr h r) finalWeek := by
  have hne : r ≠ h.next := Nat.ne_of_lt hr
  have hL : readArr (allocArr h ((readArr h r).filter
      (fun star => decide (star < upperBoundMs finalWeek)))).2 h.next =
      (readArr h r).filter (fun star => decide (star < upperBoundMs finalWeek)) := by
    simp [readArr, allocArr]
  have hkey : generateCumulativeDataHeap h r finalWeek =
      if (readArr h r).length = 0 then ([], h)
      else if (filteredStargazers (readArr h r) finalWeek).length = 0 then
        ([], writeArr (allocArr h ((readArr h r).filter
          (fun star => decide (star < upperBoundMs finalWeek)))).2 h.next
          (filteredStargazers (readArr h r) finalWeek))
      else
        (buildCumulative (filteredStargazers (readArr h r) finalWeek),
          writeArr (allocArr h ((readArr h r).filter
            (fun star => decide (star < upperBoundMs finalWeek)))).2 h.next
          (filteredStargazers (readArr h r) finalWeek)) := by
    simp only [generateCumulativeDataHeap, jsFilterAlloc, jsSortInPlace,
      allocArr_fst, readArr_writeArr_eq, hL]
    rfl
  constructor
  · rw [hkey]
    by_cases h0 : (readArr h r).length = 0
    · rw [if_pos h0]
    · rw [if_neg h0]
      by_cases h1 : (filteredStargazers (readArr h r) finalWeek).length = 0
      · rw [if_pos h1]
        simp [readArr_writeArr_ne hne, readArr_allocArr_old hne]
      · rw [if_neg h1]
        simp [readArr_writeArr_ne hne, readArr_allocArr_old hne]
  · rw [hkey]
    simp only [generateCumulativeData]
    by_cases h0 : (readArr h r).length = 0
    · rw [if_pos h0, if_pos h0]
    · rw [if_neg h0, if_neg h0]
      by_cases h1 : (filteredStargazers (readArr h r) finalWeek).length = 0
      · rw [if_pos h1, if_pos h1]
      · rw [if_neg h1, if_neg h1]

/-- Witness for C10: a heap whose array 0 holds the 2025-09-10 event; after
the call with reference week 2025-09-15, array 0 is unchanged and the result
agrees with the pure aggregator. -/
theorem c10_no_mutation_witness :
    readArr (generateCumulativeDataHeap
      ⟨fun i => if i = 0 then [20341 * 86400000] else [], 1⟩ 0 20346).2 0 =
      readArr ⟨fun i => if i = 0 then [20341 * 86400000] else [], 1⟩ 0 ∧
    (generateCumulativeDataHeap
      ⟨fun i => if i = 0 then [20341 * 86400000] else [], 1⟩ 0 20346).1 =
      generateCumulativeData [20341 * 86400000] 20346 := by
  have h := c10_no_mutation
    ⟨fun i => if i = 0 then [20341 * 86400000] else [], 1⟩ 0 20346 (by decide)
  exact ⟨h.1, h.2⟩

/-- One page-level outcome of `runGraphQL('stargazersQuery', ...)` as consumed
by the pagination loop of `fetchAllStargazers` (src/stars.js together with
src/lib/github.js). -/
inductive PageOutcome where
  | exitFail
  | noStargazers
  | page (events : List Int) (hasNextPage : Bool)

/-- The `while (hasNextPage)` pagination loop of `fetchAllStargazers`
(src/stars.js): `exitFail` models `runGraphQL` calling `process.exit(1)`
(non-zero `gh` exit, unparsable output, or GraphQL errors) — that is
`Except.error` with the exit code, not a catchable exception; `noStargazers`
models a response without `result.data?.repository?.stargazers` — logged and
`break`, returning the events collected so far; a `page` appends its events
and continues while `hasNextPage`.  An exhausted oracle ends the loop with
the collected events. -/
def fetchAllStargazersLoop : List PageOutcome → List Int → Except Nat (List Int)
  | [], stargazers => .ok stargazers
  | PageOutcome.exitFail :: _, _ => .error 1
  | PageOutcome.noStargazers :: _, stargazers => .ok stargazers
  | PageOutcome.page events hasNext :: rest, stargazers =>
    if hasNext then fetchAllStargazersLoop rest (stargazers ++ events)
    else .ok (stargazers ++ events)

/-- Model of `fetchAllStargazers` for one resource, starting from an empty
collected array. -/
def fetchAllStargazers (pages : List PageOutcome) : Except Nat (List Int) :=
  fetchAllStargazersLoop pages []

/-- The character-level `repoString.split('/')`. -/
def splitOnChar (sep : Char) : List Char → List (List Char)
  | [] => [[]]
  | c :: rest =>
    match splitOnChar sep rest with
    | [] => [[c]]
    | h :: t => if c = sep then [] :: h :: t else (c :: h) :: t

/-- Model of `parseRepoString` (src/stars.js): split on `/`; exactly two
parts give `{ owner, name }`, anything else throws an `Error`. -/
def parseRepoString (repoString : String) : Except String (String × String) :=
  match splitOnChar '/' repoString.toList with
  | [owner, name] => .ok (⟨owner⟩, ⟨name⟩)
  | _ => .error ("Invalid repository format: " ++ repoString)

/-- One iteration of `main`'s repository loop (src/stars.js): parse the repo
string (a thrown `Error` is caught by the surrounding try/catch: `.ok none`,
the resource is skipped), fetch through the paginated oracle (`process.exit`
is not an exception and is never caught: `.error` aborts everything),
aggregate, sort the entries by key (the
`new Map([...Object.entries(cumulativeData)].sort())` step; ISO date keys
sort as day numbers), and build the stored record. -/
def processRepo (repoString : String) (pages : List PageOutcome)
    (finalWeek : Int) : Except Nat (Option RepoEntry) :=
  match parseRepoString repoString with
  | .error _ => .ok none
  | .ok (owner, name) =>
    match fetchAllStargazers pages with
    | .error code => .error code
    | .ok stargazers =>
      let repoName := owner ++ "/" ++ name
      let cumulativeData := generateCumulativeData stargazers finalWeek
      let sortedCumulative :=
        List.insertionSort (fun a b => a.1 ≤ b.1) cumulativeData
      .ok (some ⟨repoName, sortedCumulative⟩)

/-- The repository loop of `main` (src/stars.js), iterating in input order.
The fetch environment `oracle` gives the pages returned by the i-th
iteration's fetch (fetches at different iterations happen at different times
and may answer differently even for the same repository name). -/
def mainLoop (oracle : Nat → List PageOutcome) (finalWeek : Int) :
    List String → Nat → List (String × RepoEntry) →
    Except Nat (List (String × RepoEntry))
  | [], _, allData => .ok allData
  | repoString :: rest, i, allData =>
    match processRepo repoString (oracle i) finalWeek with
    | .error code => .error code
    | .ok none => mainLoop oracle finalWeek rest (i + 1) allData
    | .ok (some entry) =>
      mainLoop oracle finalWeek rest (i + 1) (jsObjectSet allData entry.name entry)

/-- Model of `main` (src/stars.js): process the repositories in input order,
storing each successful result in the `allData` object under its repo name;
the output is `Object.values(allData)` — the stored records in key-insertion
order.  `.error code` means the process exited with that code before writing
any output. -/
def mainModel (repos : List String) (oracle : Nat → List PageOutcome)
    (finalWeek : Int) : Except Nat (List RepoEntry) :=
  match mainLoop oracle finalWeek repos 0 [] with
  | .error code => .error code
  | .ok allData => .ok (allData.map Prod.snd)

/-- Counterexample to C4: two well-formed repositories; the first one's fetch
fails at the `gh` subprocess level, so `runGraphQL` calls `process.exit(1)`.
The whole run terminates with exit code 1 — the second repository is never
processed and no output is written — although the same run without the
failing resource succeeds.  A single resource's fetch failure therefore does
terminate the overall run. -/
theorem c4_counterexample :
    mainModel ["owner/a", "owner/b"]
      (fun i => if i = 0 then [PageOutcome.exitFail]
        else [PageOutcome.page [20341 * 86400000] false]) 20346 =
      Except.error 1 ∧
    mainModel ["owner/b"]
      (fun _ => [PageOutcome.page [20341 * 86400000] false]) 20346 =
      Except.ok [⟨"owner/b", [(20339, 1)]⟩] :=
  ⟨rfl, rfl⟩

/-- The run survives the loop iff no reached iteration has a well-formed repo
string whose fetch hits the `process.exit` path. -/
theorem mainLoop_ok_iff (oracle : Nat → List PageOutcome) (finalWeek : Int)
    (repos : List String) :
    ∀ (i : Nat) (acc : List (String × RepoEntry)),
    (∃ out, mainLoop oracle finalWeek repos i acc = Except.ok out) ↔
    (∀ j (hj : j < repos.length), ∀ pr,
      parseRepoString repos[j] = Except.ok pr →
      ∃ l, fetchAllStargazers (oracle (i + j)) = Except.ok l) := by
  induction repos with
  | nil =>
    intro i acc
    constructor
    · intro _ j hj
      exact absurd hj (Nat.not_lt_zero j)
    · intro _
      exact ⟨acc, rfl⟩
  | cons r rest ih =>
    intro i acc
    simp only [mainLoop]
    cases hp : parseRepoString r with
    | error e =>
      have hpr : processRepo r (oracle i) finalWeek = .ok none := by
        unfold processRepo
        rw [hp]
      rw [hpr]
      constructor
      · intro hex j hj pr hpj
        cases j with
        | zero =>
          rw [List.getElem_cons_zero, hp] at hpj
          cases hpj
        | succ j2 =>
          rw [List.getElem_cons_succ] at hpj
          have hj2 : j2 < rest.length := by
            simp only [List.length_cons] at hj
            omega
          have hres := ((ih (i + 1) acc).mp hex) j2 hj2 pr hpj
          rw [show i + (j2 + 1) = (i + 1) + j2 from by omega]
          exact hres
      · intro hall
        apply ((ih (i + 1) acc).mpr)
        intro j hj pr hpj
        rw [show (i + 1) + j = i + (j + 1) from by omega]
        refine hall (j + 1) (by simp only [List.length_cons]; omega) pr ?_
        rw [List.getElem_cons_succ]
        exact hpj
    | ok pr0 =>
      obtain ⟨owner, name⟩ := pr0
      cases hf : fetchAllStargazers (oracle i) with
      | error code =>
        have hpr : processRepo r (oracle i) finalWeek = .error code := by
          unfold processRepo
          rw [hp, hf]
        rw [hpr]
        constructor
        · rintro ⟨out, hout⟩
          cases hout
        · intro hall
          exfalso
          obtain ⟨l, hl⟩ := hall 0 (by simp only [List.length_cons]; omega)
            (owner, name) (by rw [List.getElem_cons_zero]; exact hp)
          rw [Nat.add_zero, hf] at hl
          cases hl
      | ok stargazers =>
        have hpr : processRepo r (oracle i) finalWeek =
            .ok (some ⟨owner ++ "/" ++ name,
              List.insertionSort (fun a b => a.1 ≤ b.1)
                (generateCumulativeData stargazers finalWeek)⟩) := by
          unfold processRepo
          rw [hp, hf]
        rw [hpr]
        constructor
        · intro hex j hj pr hpj
          cases j with
          | zero =>
            rw [Nat.add_zero, hf]
            exact ⟨stargazers, rfl⟩
          | succ j2 =>
            rw [List.getElem_cons_succ] at hpj
            have hj2 : j2 < rest.length := by
              simp only [List.length_cons] at hj
              omega
            have hres := ((ih (i + 1) _).mp hex) j2 hj2 pr hpj
            rw [show i + (j2 + 1) = (i + 1) + j2 from by omega]
            exact hres
        · intro hall
          apply ((ih (i + 1) _).mpr)
          intro j hj pr hpj
          rw [show (i + 1) + j = i + (j + 1) from by omega]
          refine hall (j + 1) (by simp only [List.length_cons]; omega) pr ?_
          rw [List.getElem_cons_succ]
          exact hpj

/-- C4 as amended: a failure thrown inside the per-repository loop (malformed
repository string) is caught, that resource is skipped, and the run
continues; a response missing the stargazers field only truncates that
resource's pagination — the events already collected stand and the run
continues; but a fetch failure at the `gh` subprocess level (non-zero exit,
unparsable output, or GraphQL errors) terminates the entire run with exit
code 1.  Formally: the run completes iff no iteration with a well-formed repo
string has a subprocess-level fetch failure; and a missing-stargazers page
yields the events collected so far as a successful fetch. -/
theorem c4_amended_failure_semantics (repos : List String)
    (oracle : Nat → List PageOutcome) (finalWeek : Int) :
    ((∃ out, mainModel repos oracle finalWeek = Except.ok out) ↔
      (∀ j (hj : j < repos.length), ∀ pr,
        parseRepoString repos[j] = Except.ok pr →
        ∃ l, fetchAllStargazers (oracle j) = Except.ok l)) ∧
    (∀ events rest, fetchAllStargazers
        (PageOutcome.page events true :: PageOutcome.noStargazers :: rest) =
      Except.ok events) := by
  constructor
  · unfold mainModel
    cases hm : mainLoop oracle finalWeek repos 0 [] with
    | error code =>
      constructor
      · rintro ⟨out, hout⟩
        cases hout
      · intro hall
        exfalso
        obtain ⟨out, hout⟩ := (mainLoop_ok_iff oracle finalWeek repos 0 []).mpr
          (by
            intro j hj pr hpj
            rw [Nat.zero_add]
            exact hall j hj pr hpj)
        rw [hm] at hout
        cases hout
    | ok allData =>
      constructor
      · intro _ j hj pr hpj
        have hres := (mainLoop_ok_iff oracle finalWeek repos 0 []).mp
          ⟨allData, hm⟩ j hj pr hpj
        rw [Nat.zero_add] at hres
        exact hres
      · intro _
        exact ⟨allData.map Prod.snd, rfl⟩
  · intro events rest
    rfl

/-- Witness for C4's amended form: a page followed by a missing-stargazers
response yields exactly that page's events as a successful fetch. -/
theorem c4_amended_failure_semantics_witness :
    fetchAllStargazers [PageOutcome.page [20341 * 86400000] true,
      PageOutcome.noStargazers] = Except.ok [20341 * 86400000] :=
  (c4_amended_failure_semantics [] (fun _ => []) 0).2 [20341 * 86400000] []

theorem mem_of_lookupObj {κ ν : Type} [DecidableEq κ] :
    ∀ (obj : List (κ × ν)) (k : κ) (v : ν),
      lookupObj obj k = some v → (k, v) ∈ obj
  | [], k, v, h => by simp [lookupObj] at h
  | (k1, v1) :: rest, k, v, h => by
    simp only [lookupObj] at h
    by_cases he : k1 = k
    · rw [if_pos he] at h
      rw [Option.some.injEq] at h
      subst he
      subst h
      exact List.mem_cons_self _ _
    · rw [if_neg he] at h
      exact List.mem_cons_of_mem _ (mem_of_lookupObj rest k v h)

/-- First-occurrence deduplication relative to already-seen keys: JS object
keys enumerate in first-insertion order. -/
def dedupFirstAux {κ : Type} [DecidableEq κ] (seen : List κ) : List κ → List κ
  | [] => []
  | x :: rest =>
    if x ∈ seen then dedupFirstAux seen rest
    else x :: dedupFirstAux (x :: seen) rest

theorem mem_dedupFirstAux {κ : Type} [DecidableEq κ] (x : κ) :
    ∀ (l seen : List κ), x ∈ dedupFirstAux seen l ↔ x ∈ l ∧ x ∉ seen
  | [], seen => by simp [dedupFirstAux]
  | y :: rest, seen => by
    simp only [dedupFirstAux]
    by_cases h : y ∈ seen
    · rw [if_pos h, mem_dedupFirstAux x rest seen, List.mem_cons]
      constructor
      · rintro ⟨h1, h2⟩
        exact ⟨Or.inr h1, h2⟩
      · rintro ⟨h1 | h1, h2⟩
        · subst h1
          exact absurd h h2
        · exact ⟨h1, h2⟩
    · rw [if_neg h, List.mem_cons, mem_dedupFirstAux x rest (y :: seen),
        List.mem_cons]
      by_cases hxy : x = y
      · subst hxy
        simp [h]
      · simp [hxy]

theorem nodup_dedupFirstAux {κ : Type} [DecidableEq κ] :
    ∀ (l seen : List κ), (dedupFirstAux seen l).Nodup
  | [], _ => List.nodup_nil
  | y :: rest, seen => by
    simp only [dedupFirstAux]
    by_cases h : y ∈ seen
    · rw [if_pos h]
      exact nodup_dedupFirstAux rest seen
    · rw [if_neg h]
      rw [List.nodup_cons]
      refine ⟨?_, nodup_dedupFirstAux rest (y :: seen)⟩
      intro hmem
      exact absurd ((mem_dedupFirstAux y rest (y :: seen)).mp hmem).2 (by simp)

theorem dedupFirstAux_congr {κ : Type} [DecidableEq κ] :
    ∀ (l seen1 seen2 : List κ), (∀ x, x ∈ seen1 ↔ x ∈ seen2) →
      dedupFirstAux seen1 l = dedupFirstAux seen2 l
  | [], _, _, _ => rfl
  | y :: rest, s1, s2, h => by
    simp only [dedupFirstAux]
    by_cases hy : y ∈ s1
    · rw [if_pos hy, if_pos ((h y).mp hy), dedupFirstAux_congr rest s1 s2 h]
    · rw [if_neg hy, if_neg (fun hc => hy ((h y).mpr hc)),
        dedupFirstAux_congr rest (y :: s1) (y :: s2)
          (by intro x; simp [List.mem_cons, h x])]

theorem map_fst_jsObjectSet {κ ν : Type} [DecidableEq κ] :
    ∀ (obj : List (κ × ν)) (k : κ) (v : ν),
      (jsObjectSet obj k v).map Prod.fst =
        if k ∈ obj.map Prod.fst then obj.map Prod.fst
        else obj.map Prod.fst ++ [k]
  | [], k, v => by simp [jsObjectSet]
  | (k1, v1) :: rest, k, v => by
    simp only [jsObjectSet, List.map_cons]
    by_cases h : k1 = k
    · subst h
      rw [if_pos rfl, List.map_cons]
      simp
    · rw [if_neg h, List.map_cons, map_fst_jsObjectSet rest k v]
      by_cases h2 : k ∈ rest.map Prod.fst
      · rw [if_pos h2, if_pos (List.mem_cons_of_mem _ h2)]
      · have hnotin : k ∉ (k1 :: rest.map Prod.fst) := by
          rw [List.mem_cons]
          rintro (h3 | h3)
          · exact h h3.symm
          · exact h2 h3
        rw [if_neg h2, if_neg hnotin]
        simp

theorem map_fst_foldl_jsObjectSet {κ ν : Type} [DecidableEq κ] :
    ∀ (pairs init : List (κ × ν)),
      ((pairs.foldl (fun obj kv => jsObjectSet obj kv.1 kv.2) init)).map Prod.fst =
        init.map Prod.fst ++ dedupFirstAux (init.map Prod.fst) (pairs.map Prod.fst)
  | [], init => by simp [dedupFirstAux]
  | kv :: rest, init => by
    simp only [List.foldl_cons, List.map_cons, dedupFirstAux]
    rw [map_fst_foldl_jsObjectSet rest (jsObjectSet init kv.1 kv.2),
      map_fst_jsObjectSet]
    by_cases h : kv.1 ∈ init.map Prod.fst
    · rw [if_pos h, if_pos h]
    · rw [if_neg h, if_neg h]
      rw [dedupFirstAux_congr (rest.map Prod.fst)
        (init.map Prod.fst ++ [kv.1]) (kv.1 :: init.map Prod.fst)
        (by intro x; simp [List.mem_append, List.mem_cons, or_comm])]
      simp [List.append_assoc]

theorem jsObjectSet_pred {κ ν : Type} [DecidableEq κ] (P : κ × ν → Prop) :
    ∀ (obj : List (κ × ν)) (k : κ) (v : ν),
      (∀ kv ∈ obj, P kv) → P (k, v) → ∀ kv ∈ jsObjectSet obj k v, P kv
  | [], k, v, _, hkv, kv2, h2 => by
    simp only [jsObjectSet] at h2
    rw [List.mem_singleton] at h2
    subst h2
    exact hkv
  | (k1, v1) :: rest, k, v, hobj, hkv, kv2, h2 => by
    simp only [jsObjectSet] at h2
    by_cases he : k1 = k
    · rw [if_pos he] at h2
      rcases List.mem_cons.mp h2 with rfl | h3
      · subst he
        exact hkv
      · exact hobj kv2 (List.mem_cons_of_mem _ h3)
    · rw [if_neg he] at h2
      rcases List.mem_cons.mp h2 with rfl | h3
      · exact hobj _ (List.mem_cons_self _ _)
      · exact jsObjectSet_pred P rest k v
          (fun x hx => hobj x (List.mem_cons_of_mem _ hx)) hkv kv2 h3

theorem foldl_jsObjectSet_pred {κ ν : Type} [DecidableEq κ] (P : κ × ν → Prop) :
    ∀ (pairs init : List (κ × ν)),
      (∀ kv ∈ init, P kv) → (∀ kv ∈ pairs, P kv) →
      ∀ kv ∈ pairs.foldl (fun obj kv => jsObjectSet obj kv.1 kv.2) init, P kv
  | [], _, hinit, _, kv, h => hinit kv h
  | p :: rest, init, hinit, hpairs, kv, h =>
    foldl_jsObjectSet_pred P rest (jsObjectSet init p.1 p.2)
      (jsObjectSet_pred P init p.1 p.2 hinit
        (hpairs p (List.mem_cons_self _ _)))
      (fun x hx => hpairs x (List.mem_cons_of_mem _ hx)) kv h

/-- The stored key of a repo string: `owner + '/' + name` for a well-formed
string (for a malformed one, which never reaches storage, the string
itself). -/
def repoNameOf (repoString : String) : String :=
  match parseRepoString repoString with
  | .ok (owner, name) => owner ++ "/" ++ name
  | .error _ => repoString

theorem processRepo_ok_name {r : String} {pages : List PageOutcome} {fw : Int}
    {e : RepoEntry} (h : processRepo r pages fw = Except.ok (some e)) :
    e.name = repoNameOf r := by
  unfold processRepo at h
  unfold repoNameOf
  cases hp : parseRepoString r with
  | error err =>
    rw [hp] at h
    simp at h
  | ok pr =>
    obtain ⟨o, n⟩ := pr
    rw [hp] at h
    cases hf : fetchAllStargazers pages with
    | error c =>
      rw [hf] at h
      simp at h
    | ok l =>
      rw [hf] at h
      simp only [Except.ok.injEq, Option.some.injEq] at h
      rw [← h]

theorem map_snd_name {obj : List (String × RepoEntry)}
    (h : ∀ kv ∈ obj, kv.2.name = kv.1) :
    (obj.map Prod.snd).map RepoEntry.name = obj.map Prod.fst := by
  induction obj with
  | nil => rfl
  | cons kv rest ih =>
    simp only [List.map_cons]
    rw [h kv (List.mem_cons_self _ _),
      ih (fun x hx => h x (List.mem_cons_of_mem _ hx))]

/-- The (name, record) pairs the loop stores into `allData`, in iteration
order, skipping resources whose parse threw; indices follow the iteration
counter. -/
def okEntries (oracle : Nat → List PageOutcome) (finalWeek : Int) :
    List String → Nat → List (String × RepoEntry)
  | [], _ => []
  | repoString :: rest, i =>
    match processRepo repoString (oracle i) finalWeek with
    | .ok (some entry) =>
      (entry.name, entry) :: okEntries oracle finalWeek rest (i + 1)
    | _ => okEntries oracle finalWeek rest (i + 1)

theorem okEntries_append (oracle : Nat → List PageOutcome) (finalWeek : Int) :
    ∀ (l1 l2 : List String) (i : Nat),
      okEntries oracle finalWeek (l1 ++ l2) i =
        okEntries oracle finalWeek l1 i ++
          okEntries oracle finalWeek l2 (i + l1.length)
  | [], l2, i => by simp [okEntries]
  | r :: rest, l2, i => by
    simp only [List.cons_append, okEntries, List.length_cons, List.append_eq]
    cases hx : processRepo r (oracle i) finalWeek with
    | error code =>
      rw [okEntries_append oracle finalWeek rest l2 (i + 1),
        show i + (rest.length + 1) = (i + 1) + rest.length from by omega]
    | ok x =>
      cases x with
      | none =>
        rw [okEntries_append oracle finalWeek rest l2 (i + 1),
          show i + (rest.length + 1) = (i + 1) + rest.length from by omega]
      | some entry =>
        rw [okEntries_append oracle finalWeek rest l2 (i + 1),
          show i + (rest.length + 1) = (i + 1) + rest.length from by omega]
        simp [List.cons_append]

theorem okEntries_name_pred (oracle : Nat → List PageOutcome) (finalWeek : Int) :
    ∀ (repos : List String) (i : Nat),
      ∀ kv ∈ okEntries oracle finalWeek repos i, kv.2.name = kv.1
  | [], _, kv, h => absurd h (List.not_mem_nil kv)
  | r :: rest, i, kv, h => by
    simp only [okEntries] at h
    cases hx : processRepo r (oracle i) finalWeek with
    | error code =>
      rw [hx] at h
      exact okEntries_name_pred oracle finalWeek rest (i + 1) kv h
    | ok x =>
      cases x with
      | none =>
        rw [hx] at h
        exact okEntries_name_pred oracle finalWeek rest (i + 1) kv h
      | some entry =>
        rw [hx] at h
        rcases List.mem_cons.mp h with rfl | h2
        · rfl
        · exact okEntries_name_pred oracle finalWeek rest (i + 1) kv h2

theorem okEntries_map_fst (oracle : Nat → List PageOutcome) (finalWeek : Int) :
    ∀ (repos : List String) (i : Nat),
      (∀ j (hj : j < repos.length), ∃ e,
        processRepo repos[j] (oracle (i + j)) finalWeek = Except.ok (some e)) →
      (okEntries oracle finalWeek repos i).map Prod.fst = repos.map repoNameOf
  | [], _, _ => rfl
  | r :: rest, i, hok => by
    obtain ⟨e, he⟩ := hok 0 (by simp only [List.length_cons]; omega)
    simp only [List.getElem_cons_zero, Nat.add_zero] at he
    simp only [okEntries, List.map_cons]
    rw [he]
    simp only [List.map_cons]
    rw [okEntries_map_fst oracle finalWeek rest (i + 1) (fun j hj => by
        rw [show (i + 1) + j = i + (j + 1) from by omega]
        have hres := hok (j + 1) (by simp only [List.length_cons]; omega)
        rw [List.getElem_cons_succ] at hres
        exact hres),
      processRepo_ok_name he]

theorem mainLoop_eq_foldl (oracle : Nat → List PageOutcome) (finalWeek : Int) :
    ∀ (repos : List String) (i : Nat) (acc : List (String × RepoEntry)),
      (∀ j (hj : j < repos.length), ∀ code,
        processRepo repos[j] (oracle (i + j)) finalWeek ≠ Except.error code) →
      mainLoop oracle finalWeek repos i acc =
        Except.ok ((okEntries oracle finalWeek repos i).foldl
          (fun obj kv => jsObjectSet obj kv.1 kv.2) acc)
  | [], _, _, _ => rfl
  | r :: rest, i, acc, hok => by
    simp only [mainLoop, okEntries]
    cases hx : processRepo r (oracle i) finalWeek with
    | error code =>
      exact absurd hx (hok 0 (by simp only [List.length_cons]; omega) code)
    | ok x =>
      have hshift : ∀ j (hj : j < rest.length), ∀ code,
          processRepo rest[j] (oracle ((i + 1) + j)) finalWeek ≠
            Except.error code := by
        intro j hj code
        rw [show (i + 1) + j = i + (j + 1) from by omega]
        have hres := hok (j + 1) (by simp only [List.length_cons]; omega) code
        rw [List.getElem_cons_succ] at hres
        exact hres
      cases x with
      | none =>
        exact mainLoop_eq_foldl oracle finalWeek rest (i + 1) acc hshift
      | some entry =>
        simpa using mainLoop_eq_foldl oracle finalWeek rest (i + 1)
          (jsObjectSet acc entry.name entry) hshift

/-- C9: if the same repository identifier occurs several times in one run's
input list, each occurrence is processed in its own iteration with its own
fetch, the record stored under that name is the one computed from the last
occurrence's fetch (silent last-write-wins), and the name appears exactly
once in the output, at the position of its first occurrence: the output's
name sequence is the input's name sequence deduplicated keeping first
occurrences, and it has no duplicates. -/
theorem c9_duplicate_repos (repos : List String)
    (oracle : Nat → List PageOutcome) (finalWeek : Int)
    (hok : ∀ j (hj : j < repos.length), ∃ e,
      processRepo repos[j] (oracle j) finalWeek = Except.ok (some e)) :
    ∃ out, mainModel repos oracle finalWeek = Except.ok out ∧
      out.map RepoEntry.name = dedupFirstAux [] (repos.map repoNameOf) ∧
      (out.map RepoEntry.name).Nodup ∧
      ∀ i (hi : i < repos.length) (e : RepoEntry),
        processRepo repos[i] (oracle i) finalWeek = Except.ok (some e) →
        (∀ j (hj : j < repos.length), i < j →
          repoNameOf repos[j] ≠ repoNameOf repos[i]) →
        e.name = repoNameOf repos[i] ∧ e ∈ out := by
  have hok0 : ∀ j (hj : j < repos.length), ∃ e,
      processRepo repos[j] (oracle (0 + j)) finalWeek = Except.ok (some e) := by
    intro j hj
    rw [Nat.zero_add]
    exact hok j hj
  have hloop := mainLoop_eq_foldl oracle finalWeek repos 0 []
    (fun j hj code hcontra => by
      obtain ⟨e, he⟩ := hok0 j hj
      rw [he] at hcontra
      cases hcontra)
  have hmm : mainModel repos oracle finalWeek = Except.ok
      (((okEntries oracle finalWeek repos 0).foldl
        (fun obj kv => jsObjectSet obj kv.1 kv.2) []).map Prod.snd) := by
    unfold mainModel
    rw [hloop]
  have hpred : ∀ kv ∈ (okEntries oracle finalWeek repos 0).foldl
      (fun obj kv => jsObjectSet obj kv.1 kv.2) [], kv.2.name = kv.1 :=
    foldl_jsObjectSet_pred _ (okEntries oracle finalWeek repos 0) []
      (fun kv h => absurd h (List.not_mem_nil kv))
      (okEntries_name_pred oracle finalWeek repos 0)
  have hkeys : ((okEntries oracle finalWeek repos 0).foldl
      (fun obj kv => jsObjectSet obj kv.1 kv.2) []).map Prod.fst =
      dedupFirstAux [] (repos.map repoNameOf) := by
    rw [map_fst_foldl_jsObjectSet]
    simp only [List.map_nil, List.nil_append]
    rw [okEntries_map_fst oracle finalWeek repos 0 hok0]
  have hnames : ((((okEntries oracle finalWeek repos 0).foldl
      (fun obj kv => jsObjectSet obj kv.1 kv.2) []).map Prod.snd).map
        RepoEntry.name) = dedupFirstAux [] (repos.map repoNameOf) := by
    rw [map_snd_name hpred, hkeys]
  refine ⟨((okEntries oracle finalWeek repos 0).foldl
      (fun obj kv => jsObjectSet obj kv.1 kv.2) []).map Prod.snd,
    hmm, hnames, ?_, ?_⟩
  · rw [hnames]
    exact nodup_dedupFirstAux _ _
  · intro i hi e he hlast
    have hname : e.name = repoNameOf repos[i] := processRepo_ok_name he
    refine ⟨hname, ?_⟩
    have hsplit : repos = repos.take i ++ repos[i] :: repos.drop (i + 1) := by
      conv_lhs => rw [← List.take_append_drop i repos]
      rw [List.drop_eq_getElem_cons hi]
    have htl : (repos.take i).length = i := by
      rw [List.length_take]
      exact inf_eq_left.mpr (le_of_lt hi)
    have hentries : okEntries oracle finalWeek repos 0 =
        okEntries oracle finalWeek (repos.take i) 0 ++
        ((e.name, e) :: okEntries oracle finalWeek (repos.drop (i + 1)) (i + 1)) := by
      conv_lhs => rw [hsplit]
      rw [okEntries_append oracle finalWeek]
      rw [Nat.zero_add, htl]
      congr 1
      simp only [okEntries]
      rw [he]
    have hdropok : ∀ j (hj : j < (repos.drop (i + 1)).length), ∃ e2,
        processRepo (repos.drop (i + 1))[j] (oracle ((i + 1) + j)) finalWeek =
          Except.ok (some e2) := by
      intro j hj
      have hlen : i + 1 + j < repos.length := by
        rw [List.length_drop] at hj
        omega
      rw [List.getElem_drop]
      exact hok (i + 1 + j) hlen
    have hsuffix : (okEntries oracle finalWeek (repos.drop (i + 1)) (i + 1)).filter
        (fun kv => kv.1 = e.name) = [] := by
      rw [List.filter_eq_nil_iff]
      intro kv hkv
      simp only [decide_eq_true_eq]
      intro hkv1
      have hfst : kv.1 ∈ (okEntries oracle finalWeek
          (repos.drop (i + 1)) (i + 1)).map Prod.fst :=
        List.mem_map.mpr ⟨kv, hkv, rfl⟩
      rw [okEntries_map_fst oracle finalWeek _ _ hdropok] at hfst
      obtain ⟨x, hx, hxe⟩ := List.mem_map.mp hfst
      obtain ⟨j, hj, hjx⟩ := List.mem_iff_getElem.mp hx
      rw [List.getElem_drop] at hjx
      have hlen : i + 1 + j < repos.length := by
        rw [List.length_drop] at hj
        omega
      exact hlast (i + 1 + j) hlen (by omega) (by rw [hjx, hxe, hkv1, hname])
    have hlook : lookupObj ((okEntries oracle finalWeek repos 0).foldl
        (fun obj kv => jsObjectSet obj kv.1 kv.2) []) e.name = some e := by
      rw [lookupObj_foldl_jsObjectSet, hentries, List.filter_append]
      simp only [List.filter_cons]
      rw [if_pos (by simp), hsuffix, List.getLast?_concat]
    have hmem := mem_of_lookupObj _ e.name e hlook
    exact List.mem_map.mpr ⟨(e.name, e), hmem, rfl⟩

/-- A two-call fetch environment for the duplicate-repository witness: the
first fetch of the run returns one star, the second fetch returns two. -/
def duplicateRepoOracle (i : Nat) : List PageOutcome :=
  if i = 0 then [PageOutcome.page [20341 * 86400000] false]
  else [PageOutcome.page [20341 * 86400000, 20349 * 86400000] false]

/-- Witness for C9: the same repository listed twice, each occurrence fetched
in its own iteration; the stored record is the one computed from the second
(last) occurrence's fetch and the name appears once. -/
theorem c9_duplicate_repos_witness :
    ∃ out, mainModel ["o/a", "o/a"] duplicateRepoOracle 20346 = Except.ok out ∧
      out.map RepoEntry.name =
        dedupFirstAux [] ((["o/a", "o/a"] : List String).map repoNameOf) ∧
      (out.map RepoEntry.name).Nodup ∧
      ∀ i (hi : i < (["o/a", "o/a"] : List String).length) (e : RepoEntry),
        processRepo (["o/a", "o/a"] : List String)[i]
          (duplicateRepoOracle i) 20346 = Except.ok (some e) →
        (∀ j (hj : j < (["o/a", "o/a"] : List String).length), i < j →
          repoNameOf (["o/a", "o/a"] : List String)[j] ≠
            repoNameOf (["o/a", "o/a"] : List String)[i]) →
        e.name = repoNameOf (["o/a", "o/a"] : List String)[i] ∧ e ∈ out := by
  apply c9_duplicate_repos
  intro j hj
  match j, hj with
  | 0, _ => exact ⟨⟨"o/a", [(20339, 1)]⟩, rfl⟩
  | 1, _ => exact ⟨⟨"o/a", [(20339, 1), (20346, 2)]⟩, rfl⟩

theorem lookupObj_foldl_altCountStep :
    ∀ (l : List Int) (acc : List (Int × Nat)) (m : Int),
      lookupObj (l.foldl altCountStep acc) m =
        if l.countP (fun star => mondayOfMs star = m) = 0 then lookupObj acc m
        else some ((lookupObj acc m).getD 0 +
          l.countP (fun star => mondayOfMs star = m))
  | [], acc, m => by simp
  | t :: rest, acc, m => by
    simp only [List.foldl_cons, List.countP_cons]
    rw [lookupObj_foldl_altCountStep rest (altCountStep acc t) m]
    by_cases hm : mondayOfMs t = m
    · have hstep : lookupObj (altCountStep acc t) m =
          some ((lookupObj acc m).getD 0 + 1) := by
        unfold altCountStep
        rw [lookupObj_jsObjectSet, if_pos hm, hm]
      rw [hstep]
      have hc : (if decide (mondayOfMs t = m) = true then 1 else 0) = 1 := by
        simp [hm]
      rw [hc]
      by_cases h0 : rest.countP (fun star => decide (mondayOfMs star = m)) = 0
      · rw [if_pos h0, h0]
        simp
      · rw [if_neg h0, if_neg (by omega), Option.getD_some]
        congr 1
        omega
    · have hstep : lookupObj (altCountStep acc t) m = lookupObj acc m := by
        unfold altCountStep
        rw [lookupObj_jsObjectSet, if_neg hm]
      rw [hstep]
      simp [hm]

/-- Reordering the filtered array (as the parameterless `.sort()` of the
variant script may) does not change any stored per-week total: the counting
fold's reads depend only on how many filtered stars fall in each week. -/
theorem lookupObj_generateCumulativeDataAlt_perm {l1 l2 : List Int}
    (hp : l1.Perm l2) (acc : List (Int × Nat)) (m : Int) :
    lookupObj (l1.foldl altCountStep acc) m =
      lookupObj (l2.foldl altCountStep acc) m := by
  rw [lookupObj_foldl_altCountStep, lookupObj_foldl_altCountStep,
    hp.countP_eq]
